import Mathlib

/-!
Shallow embedding of the blackrock2 permutation generator
(`src/generator.rs` and `src/lib.rs`).

Machine integers (`u64`) are modelled as `Nat` with explicit reduction
`% 2 ^ 64` wherever the Rust code performs wrapping arithmetic
(`wrapping_add`, `rotate_left`, shifts).  Fallible steps (debug
assertions, potential division by zero, potential overflow, loops whose
termination is data dependent) are additionally modelled by `Option`
valued "checked" variants; `none` means the Rust code would fault or
not terminate.

The `while` loop of `BlackRockGenerator::shuffle` has no bound in the
source; it is modelled by `shuffleFuel` with an explicit fuel argument.
`shuffle` runs it with fuel `(a_mask + 1) * (b_mask + 1)`, the size of
the covering domain, and the theorems below prove that for `range ≥ 1`
this fuel always suffices (the loop terminates), while for `range = 0`
no fuel suffices (the loop never exits).
-/

namespace Blackrock2

/-- Reduction modulo `2 ^ 64`, the effect of `u64` wrapping arithmetic. -/
def wrap64 (x : Nat) : Nat := x % 2 ^ 64

/-- Model of `u64::rotate_left` for a rotation amount `0 < n < 64`
applied to a value `x < 2 ^ 64`. -/
def rotl64 (x n : Nat) : Nat := wrap64 ((x <<< n) ||| (x >>> (64 - n)))

/-- Model of `u64::ilog2` (floor of the base-2 logarithm) computed with
structural fuel; 64 units of fuel are exact for every `u64` value. -/
def log2Fuel : Nat → Nat → Nat
  | 0, _ => 0
  | fuel + 1, n => if 2 ≤ n then log2Fuel fuel (n / 2) + 1 else 0

/-- Model of `u64::checked_ilog2`: `none` exactly on input `0`. -/
def checked_ilog2 (x : Nat) : Option Nat :=
  if x = 0 then none else some (log2Fuel 64 x)

/-- Model of the local `bit_count` helper in
`BlackRockGenerator::with_seed_and_rounds`: `checked_ilog2` with the
`None` case mapped to `0`. -/
def bit_count (x : Nat) : Nat :=
  match checked_ilog2 x with
  | some v => v
  | none => 0

/-- Model of `u64::next_power_of_two`: `1` on inputs `≤ 1`, otherwise
the smallest power of two that is not below the input.  The Rust
function overflows only for inputs above `2 ^ 63`, a case ruled out by
the checked construction below. -/
def next_power_of_two (x : Nat) : Nat :=
  if x ≤ 1 then 1 else 2 ^ (log2Fuel 64 (x - 1) + 1)

/-- Loop of `int_sqrt` (`generator.rs` lines 10-13): Newton iteration
`x1 = (x0 + n / x0) / 2`, repeated while `x1 < x0`. -/
def int_sqrtIter (n x0 : Nat) : Nat :=
  let x1 := (x0 + n / x0) / 2
  if h : x1 < x0 then int_sqrtIter n x1 else x0
termination_by x0
decreasing_by exact h

/-- Model of `int_sqrt` (`generator.rs` lines 2-16): base case for
`n ≤ 1`, otherwise the Newton iteration started from `n / 2`. -/
def int_sqrt (n : Nat) : Nat :=
  if n ≤ 1 then n else int_sqrtIter n (n / 2)

/-- Fuelled and division-checked variant of the `int_sqrt` loop: `none`
if the divisor would be `0` or if the fuel is exhausted before the loop
exits. -/
def int_sqrtIterChecked : Nat → Nat → Nat → Option Nat
  | 0, _, _ => none
  | fuel + 1, n, x0 =>
    if x0 = 0 then none
    else
      let x1 := (x0 + n / x0) / 2
      if x1 < x0 then int_sqrtIterChecked fuel n x1 else some x0

/-- Checked variant of `int_sqrt`: the loop is given fuel `n / 2 + 1`
(the initial guess strictly decreases on every iteration), and every
division is checked for a zero divisor. -/
def int_sqrt_checked (n : Nat) : Option Nat :=
  if n ≤ 1 then some n else int_sqrtIterChecked (n / 2 + 1) n (n / 2)

/-- Configuration of `BlackRockGenerator` (`generator.rs` lines 20-27),
immutable once built. -/
structure BlackRockGenerator where
  range : Nat
  seed : Nat
  rounds : Nat
  a_bits : Nat
  a_mask : Nat
  b_mask : Nat

/-- Derived parameter `a` of `with_seed_and_rounds` (`generator.rs`
line 49). -/
def gen_a (range : Nat) : Nat := next_power_of_two (int_sqrt range + 1)

/-- Derived parameter `b` of `with_seed_and_rounds` (`generator.rs`
line 50). -/
def gen_b (range : Nat) : Nat := next_power_of_two (range / gen_a range + 1)

/-- Model of `BlackRockGenerator::with_seed_and_rounds` (`generator.rs`
lines 48-68). -/
def with_seed_and_rounds (range seed rounds : Nat) : BlackRockGenerator :=
  let a := gen_a range
  let b := gen_b range
  { range := range, seed := seed, rounds := rounds,
    a_bits := bit_count a, a_mask := a - 1, b_mask := b - 1 }

/-- Checked variant of `with_seed_and_rounds`: every operation that can
fault on `u64` is guarded — the `int_sqrt` loop (fuel and zero
divisors), the increments (overflow past `2 ^ 64 - 1`), the
`next_power_of_two` calls (overflow for arguments above `2 ^ 63`), the
division `range / a` (zero divisor) and the subtractions `a - 1`,
`b - 1` (underflow). -/
def with_seed_and_rounds_checked (range seed rounds : Nat) :
    Option BlackRockGenerator :=
  match int_sqrt_checked range with
  | none => none
  | some s =>
    if 2 ^ 64 ≤ s + 1 then none
    else if 2 ^ 63 < s + 1 then none
    else
      let a := next_power_of_two (s + 1)
      if a = 0 then none
      else if 2 ^ 64 ≤ range / a + 1 then none
      else if 2 ^ 63 < range / a + 1 then none
      else
        let b := next_power_of_two (range / a + 1)
        if b = 0 then none
        else
          some { range := range, seed := seed, rounds := rounds,
                 a_bits := bit_count a, a_mask := a - 1, b_mask := b - 1 }

/-- Model of `BlackRockGenerator::sipround` (`generator.rs` lines
89-103): one ARX mixing step on a four-word state.  The `self`
argument is kept because the source is a method, but it is unused. -/
def sipround (_g : BlackRockGenerator) :
    Nat × Nat × Nat × Nat → Nat × Nat × Nat × Nat
  | (v0, v1, v2, v3) =>
    let v0 := wrap64 (v0 + v1)
    let v2 := wrap64 (v2 + v3)
    let v1 := rotl64 v1 13 ^^^ v0
    let v3 := rotl64 v3 16 ^^^ v2
    let v0 := rotl64 v0 32
    let v2 := wrap64 (v2 + v1)
    let v0 := wrap64 (v0 + v3)
    let v1 := rotl64 v1 17 ^^^ v2
    let v3 := rotl64 v3 21 ^^^ v0
    let v2 := rotl64 v2 32
    (v0, v1, v2, v3)

/-- Model of `BlackRockGenerator::round` (`generator.rs` lines
105-119): the keyed round mixer, four `sipround` applications on the
initial state `(j as u64, right, seed, 0xf3016d19bc9ad940)`, returning
the final first word. -/
def round (g : BlackRockGenerator) (j right : Nat) : Nat :=
  let v0 := wrap64 j
  let v1 := right
  let v2 := g.seed
  let v3 : Nat := 0xf3016d19bc9ad940
  let v := sipround g (v0, v1, v2, v3)
  let v := sipround g v
  let v := sipround g v
  (sipround g v).1

/-- Loop of `BlackRockGenerator::encrypt` (`generator.rs` lines
126-139).  The source iterates `j` from `1` while `j <= rounds`; here
the number of remaining iterations `rem = rounds + 1 - j` is the
structural recursion argument, and the returned first component is the
final value of `j`, exactly as the source leaves it after the loop. -/
def encryptGo (g : BlackRockGenerator) : Nat → Nat → Nat → Nat → Nat × Nat × Nat
  | 0, j, left, right => (j, left, right)
  | rem + 1, j, left, right =>
    if j &&& 1 = 1 then
      encryptGo g rem (j + 1) right (wrap64 (left + round g j right) &&& g.a_mask)
    else
      encryptGo g rem (j + 1) right (wrap64 (left + round g j right) &&& g.b_mask)

/-- Model of `BlackRockGenerator::encrypt` (`generator.rs` lines
122-146): split the input with `a_mask` / `a_bits`, run the Feistel
loop, and reassemble according to the parity of the final `j`. -/
def encrypt (g : BlackRockGenerator) (m : Nat) : Nat :=
  let s := encryptGo g g.rounds 1 (m &&& g.a_mask) (m >>> g.a_bits)
  if s.1 % 2 = 0 then
    wrap64 (wrap64 (s.2.1 <<< g.a_bits) + s.2.2)
  else
    wrap64 (wrap64 (s.2.2 <<< g.a_bits) + s.2.1)

/-- Fuelled model of the cycle-walking loop of
`BlackRockGenerator::shuffle` (`generator.rs` lines 150-152): keep
re-encrypting while the value is outside `[0, range)`.  The source
loop is unbounded; `none` means it has not exited within `fuel`
iterations. -/
def shuffleFuel (g : BlackRockGenerator) : Nat → Nat → Option Nat
  | 0, _ => none
  | fuel + 1, c => if c < g.range then some c else shuffleFuel g fuel (encrypt g c)

/-- Model of `BlackRockGenerator::shuffle` (`generator.rs` lines
148-154), with the cycle walk given fuel equal to the size
`(a_mask + 1) * (b_mask + 1)` of the covering domain; the theorems
below show this fuel suffices whenever `range ≥ 1`. -/
def shuffle (g : BlackRockGenerator) (m : Nat) : Option Nat :=
  shuffleFuel g ((g.a_mask + 1) * (g.b_mask + 1)) (encrypt g m)

/-- Total value of `shuffle`, defaulting to `0` when the walk does not
exit (used to state bijectivity as a statement about a `Nat → Nat`
map). -/
def shuffleD (g : BlackRockGenerator) (m : Nat) : Nat :=
  (shuffle g m).getD 0

/-- Model of `to_ip` (`lib.rs` lines 112-115): the debug assertion
`x < u32::MAX as u64` is modelled as the guard of the `Option`; on
success the `u32` value is reinterpreted as four octets in network
byte order (most significant octet first). -/
def to_ip (x : Nat) : Option (Nat × Nat × Nat × Nat) :=
  if x < 4294967295 then
    some (x / 2 ^ 24 % 256, x / 2 ^ 16 % 256, x / 2 ^ 8 % 256, x % 256)
  else none

/-- Modelled from the spec (claim C6 wording, spec section 4.2): one
application of the ARX transform on the four-word state, written out
exactly as the specification lists it. -/
def mixStep : Nat × Nat × Nat × Nat → Nat × Nat × Nat × Nat
  | (v0, v1, v2, v3) =>
    let v0 := wrap64 (v0 + v1)
    let v2 := wrap64 (v2 + v3)
    let v1 := rotl64 v1 13 ^^^ v0
    let v3 := rotl64 v3 16 ^^^ v2
    let v0 := rotl64 v0 32
    let v2 := wrap64 (v2 + v1)
    let v0 := wrap64 (v0 + v3)
    let v1 := rotl64 v1 17 ^^^ v2
    let v3 := rotl64 v3 21 ^^^ v0
    let v2 := rotl64 v2 32
    (v0, v1, v2, v3)

/-- Modelled from the spec (spec section 4.2 and claim C6): the round
mixer as the specification describes it — initialise the state to
`(round, input, seed, 0xf3016d19bc9ad940)`, apply the transform exactly
four times, return the final `v0`. -/
def mixSpec (j input seed : Nat) : Nat :=
  (mixStep (mixStep (mixStep (mixStep (j, input, seed, 0xf3016d19bc9ad940))))).1

/-! Arithmetic facts about the parameter-derivation helpers. -/

theorem log2Fuel_eq_log2 (fuel : Nat) : ∀ n, n < 2 ^ fuel → log2Fuel fuel n = Nat.log2 n := by
  induction fuel with
  | zero =>
    intro n hn
    have hn0 : n = 0 := by omega
    subst hn0
    rw [Nat.log2]
    rfl
  | succ f ih =>
    intro n hn
    rw [Nat.log2]
    simp only [log2Fuel]
    by_cases h2 : 2 ≤ n
    · rw [if_pos h2, if_pos (by omega : n ≥ 2), ih]
      have : n < 2 ^ f * 2 := by
        calc n < 2 ^ (f + 1) := hn
        _ = 2 ^ f * 2 := by ring
      exact (Nat.div_lt_iff_lt_mul (by norm_num)).mpr this
    · rw [if_neg h2, if_neg (by omega : ¬ n ≥ 2)]

theorem next_power_of_two_pos (x : Nat) : 0 < next_power_of_two x := by
  unfold next_power_of_two
  split
  · exact Nat.one_pos
  · exact Nat.pos_pow_of_pos _ (by norm_num)

theorem next_power_of_two_is_pow (x : Nat) : ∃ k, next_power_of_two x = 2 ^ k := by
  unfold next_power_of_two
  split
  · exact ⟨0, rfl⟩
  · exact ⟨log2Fuel 64 (x - 1) + 1, rfl⟩

theorem le_next_power_of_two (x : Nat) (hx : x ≤ 2 ^ 64) : x ≤ next_power_of_two x := by
  unfold next_power_of_two
  split
  · omega
  · rename_i h
    have h2 : 2 ≤ x := by omega
    have hlt : x - 1 < 2 ^ 64 := by omega
    rw [log2Fuel_eq_log2 64 (x - 1) hlt]
    have := Nat.lt_log2_self (n := x - 1)
    omega

theorem next_power_of_two_le_pow (x k : Nat) (hx : x ≤ 2 ^ k) (hk : k ≤ 64) :
    next_power_of_two x ≤ 2 ^ k := by
  unfold next_power_of_two
  split
  · exact Nat.one_le_two_pow
  · rename_i h
    have h2 : 2 ≤ x := by omega
    have hk64 : (2 : Nat) ^ k ≤ 2 ^ 64 := Nat.pow_le_pow_right (by norm_num) hk
    have hlt : x - 1 < 2 ^ 64 := by omega
    rw [log2Fuel_eq_log2 64 (x - 1) hlt]
    have hx1 : x - 1 ≠ 0 := by omega
    have hlow : 2 ^ Nat.log2 (x - 1) ≤ x - 1 := Nat.log2_self_le hx1
    have hltk : 2 ^ Nat.log2 (x - 1) < 2 ^ k := by omega
    have : Nat.log2 (x - 1) < k := (Nat.pow_lt_pow_iff_right (by norm_num)).mp hltk
    exact Nat.pow_le_pow_right (by norm_num) (by omega)

theorem bit_count_two_pow (k : Nat) (hk : k ≤ 63) : bit_count (2 ^ k) = k := by
  unfold bit_count checked_ilog2
  have hne : (2 : Nat) ^ k ≠ 0 := (Nat.pos_pow_of_pos _ (by norm_num)).ne'
  rw [if_neg hne]
  have hlt : (2 : Nat) ^ k < 2 ^ 64 := Nat.pow_lt_pow_right (by norm_num) (by omega)
  simp only [log2Fuel_eq_log2 64 (2 ^ k) hlt]
  have h1 : 2 ^ Nat.log2 (2 ^ k) ≤ 2 ^ k := Nat.log2_self_le hne
  have h2 : (2 : Nat) ^ k < 2 ^ (Nat.log2 (2 ^ k) + 1) := Nat.lt_log2_self
  have hle : Nat.log2 (2 ^ k) ≤ k := (Nat.pow_le_pow_iff_right (by norm_num)).mp h1
  have hge : k < Nat.log2 (2 ^ k) + 1 := (Nat.pow_lt_pow_iff_right (by norm_num)).mp h2
  omega

/-! Correctness of the Newton integer square root. -/

theorem sqrt_le_newton (n x : Nat) (hx : 1 ≤ x) : Nat.sqrt n ≤ (x + n / x) / 2 := by
  set s := Nat.sqrt n with hs
  rw [Nat.le_div_iff_mul_le (by norm_num : 0 < 2)]
  by_contra hcon
  push_neg at hcon
  have h1 : n < x * (n / x + 1) := Nat.lt_mul_div_succ n hx
  have h2 : s * s ≤ n := Nat.sqrt_le n
  have h3 : x + (n / x + 1) ≤ s * 2 := by omega
  set y : Nat := n / x + 1 with hy
  have key : 4 * ((x : ℤ) * y) ≤ ((x : ℤ) + y) * ((x : ℤ) + y) := by
    nlinarith [sq_nonneg ((x : ℤ) - y)]
  have h3i : ((x : ℤ) + y) ≤ 2 * s := by exact_mod_cast by omega
  have hxy : (0 : ℤ) ≤ (x : ℤ) + y := by positivity
  have hsq : ((x : ℤ) + y) * ((x : ℤ) + y) ≤ (2 * s) * (2 * s) :=
    mul_le_mul h3i h3i hxy (by positivity)
  have h1i : (n : ℤ) + 1 ≤ (x : ℤ) * y := by exact_mod_cast by omega
  have h2i : (s : ℤ) * s ≤ n := by exact_mod_cast h2
  nlinarith

theorem sqrt_le_half (n : Nat) (h : 2 ≤ n) : Nat.sqrt n ≤ n / 2 := by
  rw [Nat.le_div_iff_mul_le (by norm_num : 0 < 2)]
  rcases le_or_lt (Nat.sqrt n) 1 with h1 | h1
  · omega
  · have := Nat.sqrt_le n
    nlinarith

theorem sqrt_pos_of_pos (n : Nat) (h : 1 ≤ n) : 1 ≤ Nat.sqrt n :=
  Nat.le_sqrt.mpr (by omega)

theorem int_sqrtIter_eq (n : Nat) (h2 : 2 ≤ n) :
    ∀ x0, 1 ≤ x0 → Nat.sqrt n ≤ x0 → int_sqrtIter n x0 = Nat.sqrt n := by
  intro x0
  induction x0 using Nat.strong_induction_on with
  | _ x0 ih =>
    intro h1 hs
    rw [int_sqrtIter]
    by_cases hlt : (x0 + n / x0) / 2 < x0
    · rw [dif_pos hlt]
      exact ih _ hlt
        (le_trans (sqrt_pos_of_pos n (by omega)) (sqrt_le_newton n x0 h1))
        (sqrt_le_newton n x0 h1)
    · rw [dif_neg hlt]
      push_neg at hlt
      have hdiv : x0 * 2 ≤ x0 + n / x0 :=
        (Nat.le_div_iff_mul_le (by norm_num : 0 < 2)).mp hlt
      have hx0 : x0 ≤ n / x0 := by omega
      have hsq : x0 * x0 ≤ n := (Nat.le_div_iff_mul_le (by omega : 0 < x0)).mp hx0
      exact le_antisymm (Nat.le_sqrt.mpr hsq) hs

theorem int_sqrt_eq_sqrt (n : Nat) : int_sqrt n = Nat.sqrt n := by
  unfold int_sqrt
  split
  · rename_i h
    interval_cases n
    · exact Nat.sqrt_zero.symm
    · exact Nat.sqrt_one.symm
  · rename_i h
    exact int_sqrtIter_eq n (by omega) (n / 2) (by omega) (sqrt_le_half n (by omega))

theorem int_sqrtIterChecked_eq (n : Nat) (h2 : 2 ≤ n) :
    ∀ fuel x0, 1 ≤ x0 → x0 < fuel →
      int_sqrtIterChecked fuel n x0 = some (int_sqrtIter n x0) := by
  intro fuel
  induction fuel with
  | zero => intro x0 _ h; omega
  | succ f ih =>
    intro x0 h1 hf
    simp only [int_sqrtIterChecked]
    rw [if_neg (by omega : ¬ x0 = 0)]
    by_cases hlt : (x0 + n / x0) / 2 < x0
    · rw [if_pos hlt, int_sqrtIter]
      rw [dif_pos hlt]
      exact ih _ (le_trans (sqrt_pos_of_pos n (by omega)) (sqrt_le_newton n x0 h1))
        (by omega)
    · rw [if_neg hlt, int_sqrtIter]
      rw [dif_neg hlt]

theorem int_sqrt_checked_eq (n : Nat) : int_sqrt_checked n = some (int_sqrt n) := by
  unfold int_sqrt_checked int_sqrt
  split
  · rfl
  · rename_i h
    exact int_sqrtIterChecked_eq n (by omega) (n / 2 + 1) (n / 2) (by omega) (by omega)

/-! Bridges between the bit operations of the source and arithmetic. -/

theorem wrap64_and_mask (x k : Nat) (hk : k ≤ 64) :
    wrap64 x &&& (2 ^ k - 1) = x % 2 ^ k := by
  rw [Nat.and_pow_two_sub_one_eq_mod, wrap64]
  exact Nat.mod_mod_of_dvd x (pow_dvd_pow 2 hk)

theorem wrap64_eq_of_lt {x : Nat} (h : x < 2 ^ 64) : wrap64 x = x :=
  Nat.mod_eq_of_lt h

/-- Invariant of the Feistel loop: at an odd round index the left half
ranges over `[0, 2 ^ ka)` and the right half over `[0, 2 ^ kb)`; at an
even round index the halves are swapped. -/
def feInv (ka kb j l r : Nat) : Prop :=
  (j % 2 = 1 → l < 2 ^ ka ∧ r < 2 ^ kb) ∧ (j % 2 = 0 → l < 2 ^ kb ∧ r < 2 ^ ka)

theorem encryptGo_spec (g : BlackRockGenerator) (ka kb : Nat)
    (hA : g.a_mask = 2 ^ ka - 1) (hB : g.b_mask = 2 ^ kb - 1)
    (hka : ka ≤ 64) (hkb : kb ≤ 64) :
    ∀ rem j l r, feInv ka kb j l r →
      ∃ l2 r2, encryptGo g rem j l r = (j + rem, l2, r2) ∧
        feInv ka kb (j + rem) l2 r2 := by
  intro rem
  induction rem with
  | zero =>
    intro j l r h
    exact ⟨l, r, rfl, h⟩
  | succ n ih =>
    intro j l r h
    simp only [encryptGo]
    by_cases hj : j % 2 = 1
    · have hj1 : j &&& 1 = 1 := by rw [Nat.and_one_is_mod]; exact hj
      rw [if_pos hj1, hA, wrap64_and_mask _ ka hka]
      have hb : (l + round g j r) % 2 ^ ka < 2 ^ ka :=
        Nat.mod_lt _ (Nat.pos_pow_of_pos _ (by norm_num))
      have hinv : feInv ka kb (j + 1) r ((l + round g j r) % 2 ^ ka) := by
        refine ⟨fun hodd => absurd hodd (by omega), fun _ => ⟨(h.1 hj).2, hb⟩⟩
      obtain ⟨l2, r2, heq, hinv2⟩ := ih (j + 1) r _ hinv
      have harith : j + 1 + n = j + (n + 1) := by omega
      rw [harith] at heq hinv2
      exact ⟨l2, r2, heq, hinv2⟩
    · have hj0 : j % 2 = 0 := by omega
      have hj1 : ¬ j &&& 1 = 1 := by rw [Nat.and_one_is_mod]; omega
      rw [if_neg hj1, hB, wrap64_and_mask _ kb hkb]
      have hb : (l + round g j r) % 2 ^ kb < 2 ^ kb :=
        Nat.mod_lt _ (Nat.pos_pow_of_pos _ (by norm_num))
      have hinv : feInv ka kb (j + 1) r ((l + round g j r) % 2 ^ kb) := by
        refine ⟨fun _ => ⟨(h.2 hj0).2, hb⟩, fun heven => absurd heven (by omega)⟩
      obtain ⟨l2, r2, heq, hinv2⟩ := ih (j + 1) r _ hinv
      have harith : j + 1 + n = j + (n + 1) := by omega
      rw [harith] at heq hinv2
      exact ⟨l2, r2, heq, hinv2⟩

set_option maxHeartbeats 1000000 in
theorem encryptGo_inj (g : BlackRockGenerator) (ka kb : Nat)
    (hA : g.a_mask = 2 ^ ka - 1) (hB : g.b_mask = 2 ^ kb - 1)
    (hka : ka ≤ 64) (hkb : kb ≤ 64) :
    ∀ rem j l r l' r', feInv ka kb j l r → feInv ka kb j l' r' →
      encryptGo g rem j l r = encryptGo g rem j l' r' → l = l' ∧ r = r' := by
  intro rem
  induction rem with
  | zero =>
    intro j l r l' r' _ _ h
    simp only [encryptGo, Prod.mk.injEq] at h
    exact ⟨h.2.1, h.2.2⟩
  | succ n ih =>
    intro j l r l' r' hv hv' h
    simp only [encryptGo] at h
    by_cases hj : j % 2 = 1
    · have hj1 : j &&& 1 = 1 := by rw [Nat.and_one_is_mod]; exact hj
      rw [if_pos hj1, if_pos hj1, hA, wrap64_and_mask _ ka hka,
        wrap64_and_mask _ ka hka] at h
      have hb : ∀ x y : Nat, (x + round g j y) % 2 ^ ka < 2 ^ ka :=
        fun x y => Nat.mod_lt _ (Nat.pos_pow_of_pos _ (by norm_num))
      have hinv : feInv ka kb (j + 1) r ((l + round g j r) % 2 ^ ka) :=
        ⟨fun hodd => absurd hodd (by omega), fun _ => ⟨(hv.1 hj).2, hb l r⟩⟩
      have hinv' : feInv ka kb (j + 1) r' ((l' + round g j r') % 2 ^ ka) :=
        ⟨fun hodd => absurd hodd (by omega), fun _ => ⟨(hv'.1 hj).2, hb l' r'⟩⟩
      obtain ⟨hr, ht⟩ := ih (j + 1) _ _ _ _ hinv hinv' h
      subst hr
      have hmod : l ≡ l' [MOD 2 ^ ka] := Nat.ModEq.add_right_cancel' (round g j r) ht
      have hl : l < 2 ^ ka := (hv.1 hj).1
      have hl' : l' < 2 ^ ka := (hv'.1 hj).1
      have : l % 2 ^ ka = l' % 2 ^ ka := hmod
      rw [Nat.mod_eq_of_lt hl, Nat.mod_eq_of_lt hl'] at this
      exact ⟨this, rfl⟩
    · have hj0 : j % 2 = 0 := by omega
      have hj1 : ¬ j &&& 1 = 1 := by rw [Nat.and_one_is_mod]; omega
      rw [if_neg hj1, if_neg hj1, hB, wrap64_and_mask _ kb hkb,
        wrap64_and_mask _ kb hkb] at h
      have hb : ∀ x y : Nat, (x + round g j y) % 2 ^ kb < 2 ^ kb :=
        fun x y => Nat.mod_lt _ (Nat.pos_pow_of_pos _ (by norm_num))
      have hinv : feInv ka kb (j + 1) r ((l + round g j r) % 2 ^ kb) :=
        ⟨fun _ => ⟨(hv.2 hj0).2, hb l r⟩, fun heven => absurd heven (by omega)⟩
      have hinv' : feInv ka kb (j + 1) r' ((l' + round g j r') % 2 ^ kb) :=
        ⟨fun _ => ⟨(hv'.2 hj0).2, hb l' r'⟩, fun heven => absurd heven (by omega)⟩
      obtain ⟨hr, ht⟩ := ih (j + 1) _ _ _ _ hinv hinv' h
      subst hr
      have hmod : l ≡ l' [MOD 2 ^ kb] := Nat.ModEq.add_right_cancel' (round g j r) ht
      have hl : l < 2 ^ kb := (hv.2 hj0).1
      have hl' : l' < 2 ^ kb := (hv'.2 hj0).1
      have : l % 2 ^ kb = l' % 2 ^ kb := hmod
      rw [Nat.mod_eq_of_lt hl, Nat.mod_eq_of_lt hl'] at this
      exact ⟨this, rfl⟩

/-! Facts about the derived parameters of a constructed generator. -/

theorem wsr_range (range seed rounds : Nat) :
    (with_seed_and_rounds range seed rounds).range = range := rfl

theorem wsr_seed (range seed rounds : Nat) :
    (with_seed_and_rounds range seed rounds).seed = seed := rfl

theorem wsr_rounds (range seed rounds : Nat) :
    (with_seed_and_rounds range seed rounds).rounds = rounds := rfl

theorem wsr_a_bits (range seed rounds : Nat) :
    (with_seed_and_rounds range seed rounds).a_bits = bit_count (gen_a range) := rfl

theorem wsr_a_mask (range seed rounds : Nat) :
    (with_seed_and_rounds range seed rounds).a_mask = gen_a range - 1 := rfl

theorem wsr_b_mask (range seed rounds : Nat) :
    (with_seed_and_rounds range seed rounds).b_mask = gen_b range - 1 := rfl

theorem int_sqrt_lt_two_pow (range : Nat) (h : range < 2 ^ 64) :
    int_sqrt range < 2 ^ 32 := by
  rw [int_sqrt_eq_sqrt]
  exact Nat.sqrt_lt.mpr (by norm_num; omega)

theorem gen_a_le (range : Nat) (h : range < 2 ^ 64) : gen_a range ≤ 2 ^ 32 := by
  have := int_sqrt_lt_two_pow range h
  exact next_power_of_two_le_pow _ 32 (by omega) (by norm_num)

theorem gen_a_pos (range : Nat) : 0 < gen_a range := next_power_of_two_pos _

theorem int_sqrt_lt_gen_a (range : Nat) (h : range < 2 ^ 64) :
    int_sqrt range < gen_a range := by
  have h1 := int_sqrt_lt_two_pow range h
  have h2 : int_sqrt range + 1 ≤ gen_a range :=
    le_next_power_of_two _ (by norm_num; omega)
  omega

theorem div_gen_a_le_int_sqrt (range : Nat) (h : range < 2 ^ 64) :
    range / gen_a range ≤ int_sqrt range := by
  set s := int_sqrt range with hs
  have hle : range / gen_a range ≤ range / (s + 1) :=
    Nat.div_le_div_left (int_sqrt_lt_gen_a range h) (by omega)
  have hsq : range < Nat.succ s * Nat.succ s := by
    rw [hs, int_sqrt_eq_sqrt]
    exact Nat.lt_succ_sqrt range
  have : range / (s + 1) < s + 1 :=
    (Nat.div_lt_iff_lt_mul (by omega)).mpr (by simpa [Nat.succ_eq_add_one] using hsq)
  omega

theorem gen_b_le (range : Nat) (h : range < 2 ^ 64) : gen_b range ≤ 2 ^ 32 := by
  have h1 := div_gen_a_le_int_sqrt range h
  have h2 := int_sqrt_lt_two_pow range h
  exact next_power_of_two_le_pow _ 32 (by omega) (by norm_num)

theorem gen_b_pos (range : Nat) : 0 < gen_b range := next_power_of_two_pos _

theorem range_lt_gen_ab (range : Nat) (h : range < 2 ^ 64) :
    range < gen_a range * gen_b range := by
  have h1 := div_gen_a_le_int_sqrt range h
  have h2 := int_sqrt_lt_two_pow range h
  have hble : range / gen_a range + 1 ≤ gen_b range :=
    le_next_power_of_two _ (by omega)
  have hstep : range < gen_a range * (range / gen_a range + 1) :=
    Nat.lt_mul_div_succ range (gen_a_pos range)
  calc range < gen_a range * (range / gen_a range + 1) := hstep
  _ ≤ gen_a range * gen_b range := Nat.mul_le_mul_left _ hble

theorem gen_a_pow (range : Nat) (h : range < 2 ^ 64) :
    ∃ ka, ka ≤ 32 ∧ gen_a range = 2 ^ ka := by
  obtain ⟨k, hk⟩ := next_power_of_two_is_pow (int_sqrt range + 1)
  refine ⟨k, ?_, hk⟩
  have h1 : (2 : Nat) ^ k ≤ 2 ^ 32 := by
    rw [← hk]
    exact gen_a_le range h
  exact (Nat.pow_le_pow_iff_right (by norm_num)).mp h1

theorem gen_b_pow (range : Nat) (h : range < 2 ^ 64) :
    ∃ kb, kb ≤ 32 ∧ gen_b range = 2 ^ kb := by
  obtain ⟨k, hk⟩ := next_power_of_two_is_pow (range / gen_a range + 1)
  refine ⟨k, ?_, hk⟩
  have h1 : (2 : Nat) ^ k ≤ 2 ^ 32 := by
    rw [← hk]
    exact gen_b_le range h
  exact (Nat.pow_le_pow_iff_right (by norm_num)).mp h1

theorem bit_count_gen_a (range ka : Nat) (hka : ka ≤ 32) (h : gen_a range = 2 ^ ka) :
    bit_count (gen_a range) = ka := by
  rw [h]
  exact bit_count_two_pow ka (by omega)

/-! Behaviour of `encrypt` on the covering domain `[0, 2 ^ ka * 2 ^ kb)`. -/

theorem pair_eq_of_base (A x y u v : Nat) (hA : 0 < A) (hy : y < A) (hv : v < A)
    (h : x * A + y = u * A + v) : x = u ∧ y = v := by
  rw [mul_comm x A, mul_comm u A] at h
  have hmod : (A * x + y) % A = (A * u + v) % A := by rw [h]
  rw [Nat.mul_add_mod, Nat.mul_add_mod, Nat.mod_eq_of_lt hy, Nat.mod_eq_of_lt hv] at hmod
  subst hmod
  refine ⟨?_, rfl⟩
  have hx : A * x = A * u := by omega
  exact Nat.eq_of_mul_eq_mul_left hA hx

theorem encrypt_spec (g : BlackRockGenerator) (ka kb : Nat)
    (hA : g.a_mask = 2 ^ ka - 1) (hbits : g.a_bits = ka) (hB : g.b_mask = 2 ^ kb - 1)
    (hka : ka ≤ 32) (hkb : kb ≤ 32) (m : Nat) (hm : m < 2 ^ ka * 2 ^ kb) :
    encrypt g m < 2 ^ ka * 2 ^ kb := by
  have hApos : (0 : Nat) < 2 ^ ka := Nat.pos_pow_of_pos _ (by norm_num)
  have hBpos : (0 : Nat) < 2 ^ kb := Nat.pos_pow_of_pos _ (by norm_num)
  have hab64 : 2 ^ ka * 2 ^ kb ≤ 2 ^ 64 := by
    rw [← pow_add]
    exact Nat.pow_le_pow_right (by norm_num) (by omega)
  have hsplit : m &&& g.a_mask = m % 2 ^ ka := by
    rw [hA, Nat.and_pow_two_sub_one_eq_mod]
  have hshift : m >>> g.a_bits = m / 2 ^ ka := by
    rw [hbits, Nat.shiftRight_eq_div_pow]
  have hinv : feInv ka kb 1 (m % 2 ^ ka) (m / 2 ^ ka) := by
    refine ⟨fun _ => ⟨Nat.mod_lt _ hApos, ?_⟩, fun heven => by omega⟩
    exact (Nat.div_lt_iff_lt_mul hApos).mpr (by rw [Nat.mul_comm]; exact hm)
  obtain ⟨l2, r2, heq, hinv2⟩ :=
    encryptGo_spec g ka kb hA hB (by omega) (by omega) g.rounds 1 _ _ hinv
  simp only [encrypt, hsplit, hshift, heq]
  by_cases hpar : (1 + g.rounds) % 2 = 0
  · rw [if_pos hpar]
    obtain ⟨hl2, hr2⟩ := hinv2.2 hpar
    rw [hbits, Nat.shiftLeft_eq]
    have hbound : l2 * 2 ^ ka + r2 < 2 ^ ka * 2 ^ kb := by
      have hstep : (l2 + 1) * 2 ^ ka ≤ 2 ^ kb * 2 ^ ka :=
        Nat.mul_le_mul_right _ (by omega)
      calc l2 * 2 ^ ka + r2 < l2 * 2 ^ ka + 2 ^ ka := by omega
      _ = (l2 + 1) * 2 ^ ka := by ring
      _ ≤ 2 ^ kb * 2 ^ ka := hstep
      _ = 2 ^ ka * 2 ^ kb := by ring
    rw [wrap64_eq_of_lt (show l2 * 2 ^ ka < 2 ^ 64 by omega),
      wrap64_eq_of_lt (by omega)]
    exact hbound
  · rw [if_neg hpar]
    obtain ⟨hl2, hr2⟩ := hinv2.1 (by omega)
    rw [hbits, Nat.shiftLeft_eq]
    have hbound : r2 * 2 ^ ka + l2 < 2 ^ ka * 2 ^ kb := by
      have hstep : (r2 + 1) * 2 ^ ka ≤ 2 ^ kb * 2 ^ ka :=
        Nat.mul_le_mul_right _ (by omega)
      calc r2 * 2 ^ ka + l2 < r2 * 2 ^ ka + 2 ^ ka := by omega
      _ = (r2 + 1) * 2 ^ ka := by ring
      _ ≤ 2 ^ kb * 2 ^ ka := hstep
      _ = 2 ^ ka * 2 ^ kb := by ring
    rw [wrap64_eq_of_lt (show r2 * 2 ^ ka < 2 ^ 64 by omega),
      wrap64_eq_of_lt (by omega)]
    exact hbound

theorem reassemble_lt (ka kb x y : Nat) (hx : x < 2 ^ kb) (hy : y < 2 ^ ka) :
    x * 2 ^ ka + y < 2 ^ ka * 2 ^ kb := by
  have hstep : (x + 1) * 2 ^ ka ≤ 2 ^ kb * 2 ^ ka :=
    Nat.mul_le_mul_right _ (by omega)
  have hexp : (x + 1) * 2 ^ ka = x * 2 ^ ka + 2 ^ ka := by ring
  have hcomm : (2 : Nat) ^ kb * 2 ^ ka = 2 ^ ka * 2 ^ kb := by ring
  omega

theorem encrypt_inj (g : BlackRockGenerator) (ka kb : Nat)
    (hA : g.a_mask = 2 ^ ka - 1) (hbits : g.a_bits = ka) (hB : g.b_mask = 2 ^ kb - 1)
    (hka : ka ≤ 32) (hkb : kb ≤ 32) (m m' : Nat)
    (hm : m < 2 ^ ka * 2 ^ kb) (hm' : m' < 2 ^ ka * 2 ^ kb)
    (he : encrypt g m = encrypt g m') : m = m' := by
  have hApos : (0 : Nat) < 2 ^ ka := Nat.pos_pow_of_pos _ (by norm_num)
  have hBpos : (0 : Nat) < 2 ^ kb := Nat.pos_pow_of_pos _ (by norm_num)
  have hab64 : 2 ^ ka * 2 ^ kb ≤ 2 ^ 64 := by
    rw [← pow_add]
    exact Nat.pow_le_pow_right (by norm_num) (by omega)
  have hsplit : ∀ x : Nat, x &&& g.a_mask = x % 2 ^ ka := fun x => by
    rw [hA, Nat.and_pow_two_sub_one_eq_mod]
  have hshift : ∀ x : Nat, x >>> g.a_bits = x / 2 ^ ka := fun x => by
    rw [hbits, Nat.shiftRight_eq_div_pow]
  have hinv : feInv ka kb 1 (m % 2 ^ ka) (m / 2 ^ ka) :=
    ⟨fun _ => ⟨Nat.mod_lt _ hApos,
      (Nat.div_lt_iff_lt_mul hApos).mpr (by rw [Nat.mul_comm]; exact hm)⟩,
     fun heven => by omega⟩
  have hinv' : feInv ka kb 1 (m' % 2 ^ ka) (m' / 2 ^ ka) :=
    ⟨fun _ => ⟨Nat.mod_lt _ hApos,
      (Nat.div_lt_iff_lt_mul hApos).mpr (by rw [Nat.mul_comm]; exact hm')⟩,
     fun heven => by omega⟩
  obtain ⟨l2, r2, heq, hi2⟩ :=
    encryptGo_spec g ka kb hA hB (by omega) (by omega) g.rounds 1 _ _ hinv
  obtain ⟨l3, r3, heq2, hi3⟩ :=
    encryptGo_spec g ka kb hA hB (by omega) (by omega) g.rounds 1 _ _ hinv'
  simp only [encrypt, hsplit, hshift, heq, heq2] at he
  by_cases hpar : (1 + g.rounds) % 2 = 0
  · rw [if_pos hpar, if_pos hpar] at he
    obtain ⟨hl2, hr2⟩ := hi2.2 hpar
    obtain ⟨hl3, hr3⟩ := hi3.2 hpar
    rw [hbits, Nat.shiftLeft_eq, Nat.shiftLeft_eq] at he
    have hb1 := reassemble_lt ka kb l2 r2 hl2 hr2
    have hb2 := reassemble_lt ka kb l3 r3 hl3 hr3
    rw [wrap64_eq_of_lt (show l2 * 2 ^ ka < 2 ^ 64 by omega),
      wrap64_eq_of_lt (show l3 * 2 ^ ka < 2 ^ 64 by omega),
      wrap64_eq_of_lt (show l2 * 2 ^ ka + r2 < 2 ^ 64 by omega),
      wrap64_eq_of_lt (show l3 * 2 ^ ka + r3 < 2 ^ 64 by omega)] at he
    obtain ⟨hleq, hreq⟩ := pair_eq_of_base (2 ^ ka) l2 r2 l3 r3 hApos hr2 hr3 he
    have hgo : encryptGo g g.rounds 1 (m % 2 ^ ka) (m / 2 ^ ka)
        = encryptGo g g.rounds 1 (m' % 2 ^ ka) (m' / 2 ^ ka) := by
      rw [heq, heq2, hleq, hreq]
    obtain ⟨hmq, hdq⟩ :=
      encryptGo_inj g ka kb hA hB (by omega) (by omega) g.rounds 1 _ _ _ _ hinv hinv' hgo
    calc m = 2 ^ ka * (m / 2 ^ ka) + m % 2 ^ ka := (Nat.div_add_mod m (2 ^ ka)).symm
    _ = 2 ^ ka * (m' / 2 ^ ka) + m' % 2 ^ ka := by rw [hmq, hdq]
    _ = m' := Nat.div_add_mod m' (2 ^ ka)
  · rw [if_neg hpar, if_neg hpar] at he
    obtain ⟨hl2, hr2⟩ := hi2.1 (by omega)
    obtain ⟨hl3, hr3⟩ := hi3.1 (by omega)
    rw [hbits, Nat.shiftLeft_eq, Nat.shiftLeft_eq] at he
    have hb1 := reassemble_lt ka kb r2 l2 hr2 hl2
    have hb2 := reassemble_lt ka kb r3 l3 hr3 hl3
    rw [wrap64_eq_of_lt (show r2 * 2 ^ ka < 2 ^ 64 by omega),
      wrap64_eq_of_lt (show r3 * 2 ^ ka < 2 ^ 64 by omega),
      wrap64_eq_of_lt (show r2 * 2 ^ ka + l2 < 2 ^ 64 by omega),
      wrap64_eq_of_lt (show r3 * 2 ^ ka + l3 < 2 ^ 64 by omega)] at he
    obtain ⟨hreq, hleq⟩ := pair_eq_of_base (2 ^ ka) r2 l2 r3 l3 hApos hl2 hl3 he
    have hgo : encryptGo g g.rounds 1 (m % 2 ^ ka) (m / 2 ^ ka)
        = encryptGo g g.rounds 1 (m' % 2 ^ ka) (m' / 2 ^ ka) := by
      rw [heq, heq2, hleq, hreq]
    obtain ⟨hmq, hdq⟩ :=
      encryptGo_inj g ka kb hA hB (by omega) (by omega) g.rounds 1 _ _ _ _ hinv hinv' hgo
    calc m = 2 ^ ka * (m / 2 ^ ka) + m % 2 ^ ka := (Nat.div_add_mod m (2 ^ ka)).symm
    _ = 2 ^ ka * (m' / 2 ^ ka) + m' % 2 ^ ka := by rw [hmq, hdq]
    _ = m' := Nat.div_add_mod m' (2 ^ ka)

/-- Generic counting argument: an injective self-map of `[0, n)` is
surjective on `[0, n)`. -/
theorem image_surj (f : Nat → Nat) (n : Nat)
    (hmap : ∀ i, i < n → f i < n)
    (hinj : ∀ i, i < n → ∀ j, j < n → f i = f j → i = j) :
    ∀ r, r < n → ∃ i, i < n ∧ f i = r := by
  intro r hr
  have hsub : (Finset.range n).image f ⊆ Finset.range n := by
    intro x hx
    obtain ⟨i, hi, hfi⟩ := Finset.mem_image.mp hx
    rw [Finset.mem_range] at hi
    exact Finset.mem_range.mpr (hfi ▸ hmap i hi)
  have hcard : ((Finset.range n).image f).card = n := by
    rw [Finset.card_image_of_injOn, Finset.card_range]
    intro i hi j hj hf
    rw [Finset.coe_range, Set.mem_Iio] at hi hj
    exact hinj i hi j hj hf
  have heq : (Finset.range n).image f = Finset.range n :=
    Finset.eq_of_subset_of_card_le hsub (by rw [hcard, Finset.card_range])
  have hmem : r ∈ (Finset.range n).image f := by
    rw [heq]
    exact Finset.mem_range.mpr hr
  obtain ⟨i, hi, hfi⟩ := Finset.mem_image.mp hmem
  exact ⟨i, Finset.mem_range.mp hi, hfi⟩

/-! Cycle-walking: termination and injectivity of the `shuffle` loop,
for an arbitrary generator whose `encrypt` permutes `[0, N)`. -/

theorem iterate_encrypt_lt (g : BlackRockGenerator) (N : Nat)
    (hmap : ∀ x, x < N → encrypt g x < N) :
    ∀ k m, m < N → (encrypt g)^[k] m < N := by
  intro k
  induction k with
  | zero => intro m hm; simpa using hm
  | succ n ih =>
    intro m hm
    rw [Function.iterate_succ_apply]
    exact ih _ (hmap m hm)

theorem iterate_encrypt_inj (g : BlackRockGenerator) (N : Nat)
    (hmap : ∀ x, x < N → encrypt g x < N)
    (hinj : ∀ x, x < N → ∀ y, y < N → encrypt g x = encrypt g y → x = y) :
    ∀ k m m', m < N → m' < N →
      (encrypt g)^[k] m = (encrypt g)^[k] m' → m = m' := by
  intro k
  induction k with
  | zero => intro m m' _ _ h; simpa using h
  | succ n ih =>
    intro m m' hm hm' h
    rw [Function.iterate_succ_apply, Function.iterate_succ_apply] at h
    exact hinj m hm m' hm' (ih _ _ (hmap m hm) (hmap m' hm') h)

theorem exists_iterate_self (g : BlackRockGenerator) (N : Nat)
    (hmap : ∀ x, x < N → encrypt g x < N)
    (hinj : ∀ x, x < N → ∀ y, y < N → encrypt g x = encrypt g y → x = y)
    (m : Nat) (hm : m < N) :
    ∃ k, 1 ≤ k ∧ k ≤ N ∧ (encrypt g)^[k] m = m := by
  have hmaps : ∀ i ∈ Finset.range (N + 1),
      (encrypt g)^[i] m ∈ Finset.range N := by
    intro i _
    exact Finset.mem_range.mpr (iterate_encrypt_lt g N hmap i m hm)
  have hcard : (Finset.range N).card < (Finset.range (N + 1)).card := by
    simp
  obtain ⟨i, hi, j, hj, hne, hfe⟩ :=
    Finset.exists_ne_map_eq_of_card_lt_of_maps_to hcard hmaps
  rw [Finset.mem_range] at hi hj
  rcases lt_or_gt_of_ne hne with hlt | hlt
  · refine ⟨j - i, by omega, by omega, ?_⟩
    rw [show j = i + (j - i) by omega, Function.iterate_add_apply] at hfe
    exact (iterate_encrypt_inj g N hmap hinj i m _ hm
      (iterate_encrypt_lt g N hmap _ m hm) hfe).symm
  · refine ⟨i - j, by omega, by omega, ?_⟩
    rw [show i = j + (i - j) by omega, Function.iterate_add_apply] at hfe
    exact iterate_encrypt_inj g N hmap hinj j _ m
      (iterate_encrypt_lt g N hmap _ m hm) hm hfe

theorem walk_finds (g : BlackRockGenerator) :
    ∀ fuel m, (∃ i, 1 ≤ i ∧ i ≤ fuel ∧ (encrypt g)^[i] m < g.range) →
      ∃ r, shuffleFuel g fuel (encrypt g m) = some r ∧ r < g.range := by
  intro fuel
  induction fuel with
  | zero => intro m ⟨i, h1, h2, _⟩; omega
  | succ f ih =>
    intro m ⟨i, h1, h2, h3⟩
    simp only [shuffleFuel]
    by_cases hc : encrypt g m < g.range
    · rw [if_pos hc]
      exact ⟨encrypt g m, rfl, hc⟩
    · rw [if_neg hc]
      have hi1 : i ≠ 1 := by
        intro hone
        subst hone
        rw [Function.iterate_one] at h3
        exact hc h3
      refine ih (encrypt g m) ⟨i - 1, by omega, by omega, ?_⟩
      have hrw : (encrypt g)^[i - 1] (encrypt g m) = (encrypt g)^[i] m := by
        rw [← Function.iterate_succ_apply]
        congr 1
        omega
      rw [hrw]
      exact h3

theorem walk_charac (g : BlackRockGenerator) :
    ∀ fuel m r, shuffleFuel g fuel (encrypt g m) = some r →
      ∃ k, 1 ≤ k ∧ k ≤ fuel ∧ r = (encrypt g)^[k] m ∧
        ∀ i, 1 ≤ i → i < k → g.range ≤ (encrypt g)^[i] m := by
  intro fuel
  induction fuel with
  | zero => intro m r h; simp [shuffleFuel] at h
  | succ f ih =>
    intro m r h
    simp only [shuffleFuel] at h
    by_cases hc : encrypt g m < g.range
    · rw [if_pos hc] at h
      refine ⟨1, le_refl 1, by omega, ?_, by omega⟩
      rw [Function.iterate_one]
      exact (Option.some.injEq _ _ ▸ h).symm
    · rw [if_neg hc] at h
      obtain ⟨k, h1, h2, h3, h4⟩ := ih (encrypt g m) r h
      refine ⟨k + 1, by omega, by omega, ?_, ?_⟩
      · rw [h3, ← Function.iterate_succ_apply]
      · intro i hi1 hik
        by_cases hone : i = 1
        · subst hone
          rw [Function.iterate_one]
          omega
        · have hrw : (encrypt g)^[i] m = (encrypt g)^[i - 1] (encrypt g m) := by
            rw [← Function.iterate_succ_apply]
            congr 1
            omega
          rw [hrw]
          exact h4 (i - 1) (by omega) (by omega)

theorem walk_collision (g : BlackRockGenerator) (N : Nat)
    (hmap : ∀ x, x < N → encrypt g x < N)
    (hinj : ∀ x, x < N → ∀ y, y < N → encrypt g x = encrypt g y → x = y)
    (m m' : Nat) (hmN : m < N) (hm'N : m' < N) (hmr : m < g.range)
    (k k2 : Nat) (hk : 1 ≤ k) (hkle : k ≤ k2)
    (hiter : (encrypt g)^[k] m = (encrypt g)^[k2] m')
    (hint : ∀ i, 1 ≤ i → i < k2 → g.range ≤ (encrypt g)^[i] m') : m = m' := by
  have hsplit : (encrypt g)^[k2] m' = (encrypt g)^[k] ((encrypt g)^[k2 - k] m') := by
    rw [← Function.iterate_add_apply]
    congr 1
    omega
  rw [hsplit] at hiter
  have hmm : m = (encrypt g)^[k2 - k] m' :=
    iterate_encrypt_inj g N hmap hinj k m _ hmN
      (iterate_encrypt_lt g N hmap _ m' hm'N) hiter
  by_cases hd : k2 - k = 0
  · rw [hd] at hmm
    simpa using hmm
  · exfalso
    have := hint (k2 - k) (by omega) (by omega)
    rw [← hmm] at this
    omega

/-! Master lemmas about a generator built by `with_seed_and_rounds`. -/

theorem wsr_bundle (range seed rounds : Nat) (h : range < 2 ^ 64) :
    ∃ ka kb, ka ≤ 32 ∧ kb ≤ 32 ∧ gen_a range = 2 ^ ka ∧ gen_b range = 2 ^ kb ∧
      (with_seed_and_rounds range seed rounds).a_mask = 2 ^ ka - 1 ∧
      (with_seed_and_rounds range seed rounds).a_bits = ka ∧
      (with_seed_and_rounds range seed rounds).b_mask = 2 ^ kb - 1 := by
  obtain ⟨ka, hka, hha⟩ := gen_a_pow range h
  obtain ⟨kb, hkb, hhb⟩ := gen_b_pow range h
  refine ⟨ka, kb, hka, hkb, hha, hhb, ?_, ?_, ?_⟩
  · rw [wsr_a_mask, hha]
  · rw [wsr_a_bits, bit_count_gen_a range ka hka hha]
  · rw [wsr_b_mask, hhb]

theorem wsr_fuel (range seed rounds : Nat) :
    ((with_seed_and_rounds range seed rounds).a_mask + 1) *
      ((with_seed_and_rounds range seed rounds).b_mask + 1) =
      gen_a range * gen_b range := by
  rw [wsr_a_mask, wsr_b_mask, Nat.sub_add_cancel (gen_a_pos range),
    Nat.sub_add_cancel (gen_b_pos range)]

theorem shuffle_eq_fuel (range seed rounds m : Nat) :
    shuffle (with_seed_and_rounds range seed rounds) m =
      shuffleFuel (with_seed_and_rounds range seed rounds)
        (gen_a range * gen_b range)
        (encrypt (with_seed_and_rounds range seed rounds) m) := by
  rw [shuffle, wsr_fuel]

theorem wsr_encrypt_lt (range seed rounds : Nat) (h : range < 2 ^ 64) :
    ∀ m, m < gen_a range * gen_b range →
      encrypt (with_seed_and_rounds range seed rounds) m <
        gen_a range * gen_b range := by
  obtain ⟨ka, kb, hka, hkb, hga, hgb, hA, hbits, hB⟩ := wsr_bundle range seed rounds h
  intro m hm
  rw [hga, hgb] at hm ⊢
  exact encrypt_spec _ ka kb hA hbits hB hka hkb m hm

theorem wsr_encrypt_inj (range seed rounds : Nat) (h : range < 2 ^ 64) :
    ∀ m, m < gen_a range * gen_b range →
      ∀ m', m' < gen_a range * gen_b range →
        encrypt (with_seed_and_rounds range seed rounds) m =
          encrypt (with_seed_and_rounds range seed rounds) m' → m = m' := by
  obtain ⟨ka, kb, hka, hkb, hga, hgb, hA, hbits, hB⟩ := wsr_bundle range seed rounds h
  intro m hm m' hm' he
  rw [hga, hgb] at hm hm'
  exact encrypt_inj _ ka kb hA hbits hB hka hkb m m' hm hm' he

theorem shuffle_mem (range seed rounds : Nat) (h64 : range < 2 ^ 64)
    (m : Nat) (hm : m < range) :
    ∃ r, shuffle (with_seed_and_rounds range seed rounds) m = some r ∧
      r < range := by
  have hmap := wsr_encrypt_lt range seed rounds h64
  have hinj := wsr_encrypt_inj range seed rounds h64
  have hmN : m < gen_a range * gen_b range :=
    lt_trans hm (range_lt_gen_ab range h64)
  obtain ⟨k, hk1, hk2, hk3⟩ :=
    exists_iterate_self (with_seed_and_rounds range seed rounds)
      (gen_a range * gen_b range) hmap hinj m hmN
  obtain ⟨r, hr, hrlt⟩ :=
    walk_finds (with_seed_and_rounds range seed rounds)
      (gen_a range * gen_b range) m
      ⟨k, hk1, hk2, by rw [hk3, wsr_range]; exact hm⟩
  refine ⟨r, ?_, ?_⟩
  · rw [shuffle_eq_fuel]
    exact hr
  · rw [wsr_range] at hrlt
    exact hrlt

theorem shuffle_injective (range seed rounds : Nat) (h64 : range < 2 ^ 64)
    (m m' : Nat) (hm : m < range) (hm' : m' < range)
    (he : shuffle (with_seed_and_rounds range seed rounds) m =
      shuffle (with_seed_and_rounds range seed rounds) m') : m = m' := by
  have hmap := wsr_encrypt_lt range seed rounds h64
  have hinj := wsr_encrypt_inj range seed rounds h64
  have hmN : m < gen_a range * gen_b range :=
    lt_trans hm (range_lt_gen_ab range h64)
  have hm'N : m' < gen_a range * gen_b range :=
    lt_trans hm' (range_lt_gen_ab range h64)
  obtain ⟨r, hr, hrlt⟩ := shuffle_mem range seed rounds h64 m hm
  obtain ⟨r2, hr2, hrlt2⟩ := shuffle_mem range seed rounds h64 m' hm'
  have hrr : r = r2 := by
    rw [hr, hr2] at he
    exact Option.some.inj he
  subst hrr
  rw [shuffle_eq_fuel] at hr hr2
  obtain ⟨k, hk1, hk2, hk3, hk4⟩ :=
    walk_charac (with_seed_and_rounds range seed rounds)
      (gen_a range * gen_b range) m r hr
  obtain ⟨k2, hl1, hl2, hl3, hl4⟩ :=
    walk_charac (with_seed_and_rounds range seed rounds)
      (gen_a range * gen_b range) m' r hr2
  have hiter : (encrypt (with_seed_and_rounds range seed rounds))^[k] m =
      (encrypt (with_seed_and_rounds range seed rounds))^[k2] m' := by
    rw [← hk3, ← hl3]
  rcases le_total k k2 with hle | hle
  · exact walk_collision (with_seed_and_rounds range seed rounds)
      (gen_a range * gen_b range) hmap hinj m m' hmN hm'N
      (by rw [wsr_range]; exact hm) k k2 hk1 hle hiter hl4
  · exact (walk_collision (with_seed_and_rounds range seed rounds)
      (gen_a range * gen_b range) hmap hinj m' m hm'N hmN
      (by rw [wsr_range]; exact hm') k2 k hl1 hle hiter.symm hk4).symm

theorem shuffle_some_shuffleD (range seed rounds : Nat) (h64 : range < 2 ^ 64)
    (m : Nat) (hm : m < range) :
    shuffle (with_seed_and_rounds range seed rounds) m =
      some (shuffleD (with_seed_and_rounds range seed rounds) m) ∧
      shuffleD (with_seed_and_rounds range seed rounds) m < range := by
  obtain ⟨r, hr, hlt⟩ := shuffle_mem range seed rounds h64 m hm
  have hd : shuffleD (with_seed_and_rounds range seed rounds) m = r := by
    rw [shuffleD, hr]
    rfl
  rw [hd]
  exact ⟨hr, hlt⟩

theorem shuffle_surjective (range seed rounds : Nat) (h64 : range < 2 ^ 64)
    (r : Nat) (hr : r < range) :
    ∃ m, m < range ∧
      shuffle (with_seed_and_rounds range seed rounds) m = some r := by
  have hmap2 : ∀ i, i < range →
      shuffleD (with_seed_and_rounds range seed rounds) i < range :=
    fun i hi => (shuffle_some_shuffleD range seed rounds h64 i hi).2
  have hinj2 : ∀ i, i < range → ∀ j, j < range →
      shuffleD (with_seed_and_rounds range seed rounds) i =
        shuffleD (with_seed_and_rounds range seed rounds) j → i = j := by
    intro i hi j hj hss
    apply shuffle_injective range seed rounds h64 i j hi hj
    rw [(shuffle_some_shuffleD range seed rounds h64 i hi).1,
      (shuffle_some_shuffleD range seed rounds h64 j hj).1, hss]
  obtain ⟨i, hi, hfi⟩ :=
    image_surj (shuffleD (with_seed_and_rounds range seed rounds)) range
      hmap2 hinj2 r hr
  refine ⟨i, hi, ?_⟩
  rw [(shuffle_some_shuffleD range seed rounds h64 i hi).1, hfi]

theorem log2_two_pow (k : Nat) : Nat.log2 (2 ^ k) = k := by
  have hne : (2 : Nat) ^ k ≠ 0 := (Nat.pos_pow_of_pos _ (by norm_num)).ne'
  have h1 : 2 ^ Nat.log2 (2 ^ k) ≤ 2 ^ k := Nat.log2_self_le hne
  have h2 : (2 : Nat) ^ k < 2 ^ (Nat.log2 (2 ^ k) + 1) := Nat.lt_log2_self
  have hle : Nat.log2 (2 ^ k) ≤ k := (Nat.pow_le_pow_iff_right (by norm_num)).mp h1
  have hge : k < Nat.log2 (2 ^ k) + 1 := (Nat.pow_lt_pow_iff_right (by norm_num)).mp h2
  omega

theorem sipround_eq_mixStep (g : BlackRockGenerator) (v : Nat × Nat × Nat × Nat) :
    sipround g v = mixStep v := by
  obtain ⟨v0, v1, v2, v3⟩ := v
  rfl

theorem wsr_checked_eq (range seed rounds : Nat) (h : range < 2 ^ 64) :
    with_seed_and_rounds_checked range seed rounds =
      some (with_seed_and_rounds range seed rounds) := by
  have hs : int_sqrt range < 2 ^ 32 := int_sqrt_lt_two_pow range h
  have hdiv : range / next_power_of_two (int_sqrt range + 1) ≤ int_sqrt range :=
    div_gen_a_le_int_sqrt range h
  have hapos : 0 < next_power_of_two (int_sqrt range + 1) := next_power_of_two_pos _
  have hbpos : 0 <
      next_power_of_two (range / next_power_of_two (int_sqrt range + 1) + 1) :=
    next_power_of_two_pos _
  simp only [with_seed_and_rounds_checked, int_sqrt_checked_eq]
  rw [if_neg (by omega), if_neg (by omega), if_neg (by omega), if_neg (by omega),
    if_neg (by omega), if_neg (by omega)]
  rfl

/-! Claim theorems. -/

/-- Claim C1: for every generator built by `with_seed_and_rounds (range, seed,
rounds)` with `range ≥ 1` (a `u64` value), `shuffle i` for `i < range` returns
a value (`some`), that value is in `[0, range)`, and the induced map on
`[0, range)` is a bijection onto `[0, range)`. -/
theorem claim_C1_shuffle_bijection (range seed rounds : Nat)
    (h1 : 1 ≤ range) (h64 : range < 2 ^ 64) :
    (∀ i, i < range →
      shuffle (with_seed_and_rounds range seed rounds) i =
        some (shuffleD (with_seed_and_rounds range seed rounds) i)) ∧
    Set.BijOn (shuffleD (with_seed_and_rounds range seed rounds))
      (Set.Iio range) (Set.Iio range) := by
  refine ⟨fun i hi => (shuffle_some_shuffleD range seed rounds h64 i hi).1,
    ?_, ?_, ?_⟩
  · intro i hi
    rw [Set.mem_Iio] at hi ⊢
    exact (shuffle_some_shuffleD range seed rounds h64 i hi).2
  · intro i hi j hj hss
    rw [Set.mem_Iio] at hi hj
    apply shuffle_injective range seed rounds h64 i j hi hj
    rw [(shuffle_some_shuffleD range seed rounds h64 i hi).1,
      (shuffle_some_shuffleD range seed rounds h64 j hj).1, hss]
  · intro r hr
    rw [Set.mem_Iio] at hr
    obtain ⟨i, hi, hfi⟩ := shuffle_surjective range seed rounds h64 r hr
    have hd : shuffleD (with_seed_and_rounds range seed rounds) i = r := by
      rw [shuffleD, hfi]
      rfl
    exact ⟨i, Set.mem_Iio.mpr hi, hd⟩

/-- Witness for claim C1 at `range = 10`, `seed = 0`, `rounds = 3`. -/
theorem claim_C1_witness :
    ((1 : Nat) ≤ 10 ∧ (10 : Nat) < 2 ^ 64) ∧
    ((∀ i, i < 10 →
      shuffle (with_seed_and_rounds 10 0 3) i =
        some (shuffleD (with_seed_and_rounds 10 0 3) i)) ∧
    Set.BijOn (shuffleD (with_seed_and_rounds 10 0 3))
      (Set.Iio 10) (Set.Iio 10)) :=
  ⟨⟨by norm_num, by norm_num⟩,
    claim_C1_shuffle_bijection 10 0 3 (by norm_num) (by norm_num)⟩

/-- Claim C2: for every `range` (a `u64` value), `seed` and `rounds ≥ 0`, the
Feistel network `encrypt` is a bijection on the covering domain
`[0, a * b)` where `a = next_power_of_two (int_sqrt range + 1)` (that is
`gen_a range`) and `b = next_power_of_two (range / a + 1)` (that is
`gen_b range`): outputs of inputs from the domain stay in the domain, are
pairwise distinct, and every domain element is hit; `rounds = 0` is included
since `rounds` is universally quantified. -/
theorem claim_C2_encrypt_bijection (range seed rounds : Nat)
    (h64 : range < 2 ^ 64) :
    (∀ m, m < gen_a range * gen_b range →
      encrypt (with_seed_and_rounds range seed rounds) m <
        gen_a range * gen_b range) ∧
    (∀ m, m < gen_a range * gen_b range →
      ∀ m', m' < gen_a range * gen_b range →
        encrypt (with_seed_and_rounds range seed rounds) m =
          encrypt (with_seed_and_rounds range seed rounds) m' → m = m') ∧
    (∀ c, c < gen_a range * gen_b range →
      ∃ m, m < gen_a range * gen_b range ∧
        encrypt (with_seed_and_rounds range seed rounds) m = c) := by
  refine ⟨wsr_encrypt_lt range seed rounds h64,
    wsr_encrypt_inj range seed rounds h64, ?_⟩
  intro c hc
  exact image_surj (encrypt (with_seed_and_rounds range seed rounds))
    (gen_a range * gen_b range)
    (wsr_encrypt_lt range seed rounds h64)
    (wsr_encrypt_inj range seed rounds h64) c hc

/-- Witness for claim C2 at `range = 10`, `seed = 0`, `rounds = 0` (the
degenerate zero-round case the claim singles out). -/
theorem claim_C2_witness :
    ((10 : Nat) < 2 ^ 64) ∧
    ((∀ m, m < gen_a 10 * gen_b 10 →
      encrypt (with_seed_and_rounds 10 0 0) m < gen_a 10 * gen_b 10) ∧
    (∀ m, m < gen_a 10 * gen_b 10 →
      ∀ m', m' < gen_a 10 * gen_b 10 →
        encrypt (with_seed_and_rounds 10 0 0) m =
          encrypt (with_seed_and_rounds 10 0 0) m' → m = m') ∧
    (∀ c, c < gen_a 10 * gen_b 10 →
      ∃ m, m < gen_a 10 * gen_b 10 ∧
        encrypt (with_seed_and_rounds 10 0 0) m = c)) :=
  ⟨by norm_num, claim_C2_encrypt_bijection 10 0 0 (by norm_num)⟩

/-- Claim C3: for every `range` (a `u64` value), the derived parameters
satisfy: `gen_a range` and `gen_b range` are powers of two (possibly `1`,
that is exponent `0`), their product covers `range`, the stored masks are
`a - 1` and `b - 1`, and `a_bits` is the floor base-2 logarithm of `a`
(which is `0` when `a ≤ 1`, as `Nat.log2` maps `0` and `1` to `0`). -/
theorem claim_C3_parameters (range seed rounds : Nat) (h64 : range < 2 ^ 64) :
    (∃ i, gen_a range = 2 ^ i) ∧ (∃ j, gen_b range = 2 ^ j) ∧
    range ≤ gen_a range * gen_b range ∧
    (with_seed_and_rounds range seed rounds).a_mask = gen_a range - 1 ∧
    (with_seed_and_rounds range seed rounds).b_mask = gen_b range - 1 ∧
    (with_seed_and_rounds range seed rounds).a_bits = Nat.log2 (gen_a range) := by
  obtain ⟨ka, hka, hha⟩ := gen_a_pow range h64
  obtain ⟨kb, hkb, hhb⟩ := gen_b_pow range h64
  refine ⟨⟨ka, hha⟩, ⟨kb, hhb⟩, le_of_lt (range_lt_gen_ab range h64), rfl, rfl, ?_⟩
  rw [wsr_a_bits, bit_count_gen_a range ka hka hha, hha, log2_two_pow]

/-- Witness for claim C3 at `range = 10`. -/
theorem claim_C3_witness :
    ((10 : Nat) < 2 ^ 64) ∧
    ((∃ i, gen_a 10 = 2 ^ i) ∧ (∃ j, gen_b 10 = 2 ^ j) ∧
    10 ≤ gen_a 10 * gen_b 10 ∧
    (with_seed_and_rounds 10 0 3).a_mask = gen_a 10 - 1 ∧
    (with_seed_and_rounds 10 0 3).b_mask = gen_b 10 - 1 ∧
    (with_seed_and_rounds 10 0 3).a_bits = Nat.log2 (gen_a 10)) :=
  ⟨by norm_num, claim_C3_parameters 10 0 3 (by norm_num)⟩

/-- Claim C4 counterexample: the claim states that `range = 1` gives
`a_bits = 0`, but the generator built with `range = 1`, `seed = 0`,
`rounds = 3` has `a_bits = 1` (since `int_sqrt 1 = 1`, so
`a = next_power_of_two 2 = 2`). -/
theorem claim_C4_counterexample :
    ¬ (with_seed_and_rounds 1 0 3).a_bits = 0 := by decide

/-- Claim C4 (amended): for every seed and rounds, `range = 0` gives
`a_bits = 0`, but `range = 1` gives `a_bits = 1` — the covering domain
collapses only for `range = 0`; for `range = 1` it is `[0, 2)`. -/
theorem claim_C4_amended (seed rounds : Nat) :
    (with_seed_and_rounds 0 seed rounds).a_bits = 0 ∧
    (with_seed_and_rounds 1 seed rounds).a_bits = 1 :=
  ⟨rfl, rfl⟩

/-- Claim C5 (code bug): the underlying range-`2 ^ 32` iterator does
produce the value `2 ^ 32 - 1` (`u32::MAX`) — for every seed and rounds
there is an index `i < 2 ^ 32` with `shuffle i = 2 ^ 32 - 1` — and the
address adapter `to_ip` rejects exactly that value, because its debug
assertion is the strict comparison `x < u32::MAX as u64`. -/
theorem claim_C5_assert_fails (seed rounds : Nat) :
    (∃ i, i < 2 ^ 32 ∧
      shuffle (with_seed_and_rounds (2 ^ 32) seed rounds) i =
        some (2 ^ 32 - 1)) ∧
    to_ip (2 ^ 32 - 1) = none := by
  constructor
  · obtain ⟨m, hm, hsm⟩ := shuffle_surjective (2 ^ 32) seed rounds
      (by norm_num) (2 ^ 32 - 1) (by norm_num)
    exact ⟨m, hm, hsm⟩
  · decide

/-- Claim C6: the round mixer `round` equals the specification mixer: state
initialised to `(j, input, seed, 0xf3016d19bc9ad940)`, the ARX transform
applied exactly four times, returning the final `v0`; `j < 2 ^ 64` reflects
that the round index is a machine integer. -/
theorem claim_C6_round_mixer (g : BlackRockGenerator) (j input : Nat)
    (hj : j < 2 ^ 64) :
    round g j input = mixSpec j input g.seed := by
  simp only [round, mixSpec, wrap64_eq_of_lt hj, sipround_eq_mixStep]

/-- Witness for claim C6 at `j = 2`, `input = 7`, with the generator built
from `(5, 9, 3)` (so its seed is `9`). -/
theorem claim_C6_witness :
    ((2 : Nat) < 2 ^ 64) ∧
    round (with_seed_and_rounds 5 9 3) 2 7 =
      mixSpec 2 7 (with_seed_and_rounds 5 9 3).seed :=
  ⟨by norm_num, claim_C6_round_mixer (with_seed_and_rounds 5 9 3) 2 7 (by norm_num)⟩

/-- Claim C7: for every `n` in `[0, 2 ^ 64)`, `int_sqrt n` is exactly the
floor of the true square root, and the computation terminates without a
division by zero: the fuelled, division-checked variant returns
`some (int_sqrt n)`. -/
theorem claim_C7_int_sqrt (n : Nat) (h : n < 2 ^ 64) :
    int_sqrt n * int_sqrt n ≤ n ∧
    n < (int_sqrt n + 1) * (int_sqrt n + 1) ∧
    int_sqrt_checked n = some (int_sqrt n) := by
  refine ⟨?_, ?_, int_sqrt_checked_eq n⟩
  · rw [int_sqrt_eq_sqrt]
    exact Nat.sqrt_le n
  · rw [int_sqrt_eq_sqrt]
    have := Nat.lt_succ_sqrt n
    simpa [Nat.succ_eq_add_one] using this

/-- Witness for claim C7 at `n = 123456789`. -/
theorem claim_C7_witness :
    ((123456789 : Nat) < 2 ^ 64) ∧
    (int_sqrt 123456789 * int_sqrt 123456789 ≤ 123456789 ∧
    123456789 < (int_sqrt 123456789 + 1) * (int_sqrt 123456789 + 1) ∧
    int_sqrt_checked 123456789 = some (int_sqrt 123456789)) :=
  ⟨by norm_num, claim_C7_int_sqrt 123456789 (by norm_num)⟩

/-- Claim C8: for every seed and rounds, the generator with `range = 1`
satisfies `shuffle 0 = some 0`: the cycle walk terminates and the
permutation of the single-element domain is the identity. -/
theorem claim_C8_range_one (seed rounds : Nat) :
    shuffle (with_seed_and_rounds 1 seed rounds) 0 = some 0 := by
  obtain ⟨r, hr, hlt⟩ := shuffle_mem 1 seed rounds (by norm_num) 0 (by norm_num)
  have hr0 : r = 0 := by omega
  rw [hr0] at hr
  exact hr

/-- Claim C9: construction via `with_seed_and_rounds` is total and never
faults for any `u64` range: the checked model — which verifies termination
fuel and divisor of the `int_sqrt` loop, absence of overflow in both `+ 1`
increments and both `next_power_of_two` calls, a nonzero divisor in
`range / a`, and no underflow in `a - 1` and `b - 1` — succeeds and returns
exactly the unchecked construction. -/
theorem claim_C9_construction_total (range seed rounds : Nat)
    (h : range < 2 ^ 64) :
    with_seed_and_rounds_checked range seed rounds =
      some (with_seed_and_rounds range seed rounds) :=
  wsr_checked_eq range seed rounds h

/-- Witness for claim C9 at `(range, seed, rounds) = (12, 3, 4)`. -/
theorem claim_C9_witness :
    ((12 : Nat) < 2 ^ 64) ∧
    with_seed_and_rounds_checked 12 3 4 = some (with_seed_and_rounds 12 3 4) :=
  ⟨by norm_num, claim_C9_construction_total 12 3 4 (by norm_num)⟩

/-- Claim C10: for a generator with `range = 0`, the cycle walk never
terminates: every iterate of `encrypt` is `≥ range` (trivially, as no `u64`
value is below `0`), so the loop guard never becomes false — for every
amount of fuel the fuelled walk returns `none`, and in particular `shuffle`
returns `none` for every input. -/
theorem claim_C10_range_zero_loops (seed rounds : Nat) :
    (∀ k i, (with_seed_and_rounds 0 seed rounds).range ≤
      (encrypt (with_seed_and_rounds 0 seed rounds))^[k] i) ∧
    (∀ fuel c, shuffleFuel (with_seed_and_rounds 0 seed rounds) fuel c = none) ∧
    (∀ m, shuffle (with_seed_and_rounds 0 seed rounds) m = none) := by
  have hzero : (with_seed_and_rounds 0 seed rounds).range = 0 := rfl
  have hfuel : ∀ fuel c,
      shuffleFuel (with_seed_and_rounds 0 seed rounds) fuel c = none := by
    intro fuel
    induction fuel with
    | zero => intro c; rfl
    | succ f ih =>
      intro c
      simp only [shuffleFuel]
      rw [if_neg (by rw [hzero]; omega)]
      exact ih _
  refine ⟨?_, hfuel, fun m => hfuel _ _⟩
  intro k i
  rw [hzero]
  exact Nat.zero_le _

end Blackrock2
